import Mathlib

set_option maxRecDepth 16384

/-!
Verification of the `users` package of chrisfentiman/pit.

The package is an account store backed by a DynamoDB table.  We embed it
shallowly:

* Go strings and byte slices become `GoStr := List Nat` (byte values; Go
  strings are byte sequences).
* The DynamoDB table becomes an association list from the `uid` hash key to
  the stored item (four string attributes).  `GetItemConsistent` becomes an
  association lookup, `PutItem` an upsert.  The goamz client reports an error
  for a missing item, which `AdminGetUserInfoByID` turns into `nil`, so a
  missing key simply yields `none`.
* `json.Marshal`/`json.Unmarshal` on the `info` and `logs` attributes become
  the `JsonBlob` codec below: marshalling a value always succeeds and
  round-trips, and a stored string that does not parse is `malformed` and
  unmarshals to `none`.
* The PBKDF2-HMAC-SHA256 + base64 credential hasher is implemented in full
  (over `Nat` bytes, with explicit `% 2 ^ w` reductions).
* Side effects (current time, whether a DynamoDB put succeeds) are passed as
  explicit arguments (`now : Int`, `putOk : Bool`); in-place mutation of a
  `User` becomes returning the updated record.

`GetModel`, `initTable` and `delTable` (AWS connection plumbing and table
lifecycle) are not modelled: no claim is about them.
-/

/-- Go strings and byte slices, as lists of byte values. -/
abbrev GoStr := List Nat

/-- Bytes of an ASCII string literal, for readable concrete inputs. -/
def strBytes (s : String) : GoStr := s.toList.map Char.toNat

/-! ## SHA-256 (as used via `crypto/sha256`) -/

/-- Truncation to a 32-bit word. -/
def w32 (x : Nat) : Nat := x % 4294967296

/-- Right rotation of a 32-bit word. -/
def rotr32 (x n : Nat) : Nat := w32 ((x >>> n) ||| (x <<< (32 - n)))

/-- The SHA-256 round constants. -/
def sha256K : List Nat :=
  [1116352408, 1899447441, 3049323471, 3921009573, 961987163, 1508970993,
   2453635748, 2870763221, 3624381080, 310598401, 607225278, 1426881987,
   1925078388, 2162078206, 2614888103, 3248222580, 3835390401, 4022224774,
   264347078, 604807628, 770255983, 1249150122, 1555081692, 1996064986,
   2554220882, 2821834349, 2952996808, 3210313671, 3336571891, 3584528711,
   113926993, 338241895, 666307205, 773529912, 1294757372, 1396182291,
   1695183700, 1986661051, 2177026350, 2456956037, 2730485921, 2820302411,
   3259730800, 3345764771, 3516065817, 3600352804, 4094571909, 275423344,
   430227734, 506948616, 659060556, 883997877, 958139571, 1322822218,
   1537002063, 1747873779, 1955562222, 2024104815, 2227730452, 2361852424,
   2428436474, 2756734187, 3204031479, 3329325298]

/-- The eight 32-bit words of a SHA-256 state. -/
structure Hash8 where
  s0 : Nat
  s1 : Nat
  s2 : Nat
  s3 : Nat
  s4 : Nat
  s5 : Nat
  s6 : Nat
  s7 : Nat
deriving DecidableEq

/-- SHA-256 initial state. -/
def sha256Init : Hash8 :=
  ⟨1779033703, 3144134277, 1013904242, 2773480762,
   1359893119, 2600822924, 528734635, 1541459225⟩

/-- Big-endian 32-bit words from bytes. -/
def toWords32 : List Nat → List Nat
  | a :: b :: c :: d :: rest =>
    (a * 16777216 + b * 65536 + c * 256 + d) :: toWords32 rest
  | _ => []

/-- Extend a 16-word message schedule by the given count of words. -/
def extendSchedule (ws : List Nat) : Nat → List Nat
  | 0 => ws
  | n + 1 =>
    let k := ws.length
    let wB := ws.getD (k - 15) 0
    let wD := ws.getD (k - 2) 0
    let t0 := (rotr32 wB 7) ^^^ (rotr32 wB 18) ^^^ (wB >>> 3)
    let t1 := (rotr32 wD 17) ^^^ (rotr32 wD 19) ^^^ (wD >>> 10)
    extendSchedule (ws ++ [w32 (ws.getD (k - 16) 0 + t0 + ws.getD (k - 7) 0 + t1)]) n

/-- One SHA-256 compression round, fed a pair of round constant and
schedule word. -/
def shaRound (st : Hash8) (kw : Nat × Nat) : Hash8 :=
  let bigS1 := (rotr32 st.s4 6) ^^^ (rotr32 st.s4 11) ^^^ (rotr32 st.s4 25)
  let ch := (st.s4 &&& st.s5) ^^^ ((st.s4 ^^^ 4294967295) &&& st.s6)
  let t1 := w32 (st.s7 + bigS1 + ch + kw.1 + kw.2)
  let bigS0 := (rotr32 st.s0 2) ^^^ (rotr32 st.s0 13) ^^^ (rotr32 st.s0 22)
  let mj := (st.s0 &&& st.s1) ^^^ (st.s0 &&& st.s2) ^^^ (st.s1 &&& st.s2)
  let t2 := w32 (bigS0 + mj)
  ⟨w32 (t1 + t2), st.s0, st.s1, st.s2, w32 (st.s3 + t1), st.s4, st.s5, st.s6⟩

/-- Compression of one 64-byte block into the running state. -/
def shaCompress (st : Hash8) (block : List Nat) : Hash8 :=
  let ws := extendSchedule (toWords32 block) 48
  let f := (sha256K.zip ws).foldl shaRound st
  ⟨w32 (st.s0 + f.s0), w32 (st.s1 + f.s1), w32 (st.s2 + f.s2), w32 (st.s3 + f.s3),
   w32 (st.s4 + f.s4), w32 (st.s5 + f.s5), w32 (st.s6 + f.s6), w32 (st.s7 + f.s7)⟩

/-- Fold the compression over 64-byte chunks; the fuel is the number of
blocks of the (already padded) message. -/
def shaChunksGo (st : Hash8) (bytes : List Nat) : Nat → Hash8
  | 0 => st
  | n + 1 => shaChunksGo (shaCompress st (bytes.take 64)) (bytes.drop 64) n

/-- Big-endian 8-byte encoding of a 64-bit length. -/
def be64 (x : Nat) : List Nat :=
  [x / 72057594037927936 % 256, x / 281474976710656 % 256,
   x / 1099511627776 % 256, x / 4294967296 % 256,
   x / 16777216 % 256, x / 65536 % 256, x / 256 % 256, x % 256]

/-- SHA-256 padding: a 0x80 byte, zeros to 56 mod 64, then the bit length. -/
def sha256Pad (msg : List Nat) : List Nat :=
  msg ++ [128] ++ List.replicate ((120 - (msg.length + 1) % 64) % 64) 0
      ++ be64 (msg.length * 8)

/-- Big-endian bytes of a 32-bit word. -/
def wordBE4 (x : Nat) : List Nat :=
  [x / 16777216 % 256, x / 65536 % 256, x / 256 % 256, x % 256]

/-- Serialization of the final SHA-256 state as 32 digest bytes. -/
def digestBytes (st : Hash8) : List Nat :=
  wordBE4 st.s0 ++ wordBE4 st.s1 ++ wordBE4 st.s2 ++ wordBE4 st.s3 ++
  wordBE4 st.s4 ++ wordBE4 st.s5 ++ wordBE4 st.s6 ++ wordBE4 st.s7

/-- SHA-256 of a byte string. -/
def sha256 (msg : List Nat) : List Nat :=
  let padded := sha256Pad msg
  digestBytes (shaChunksGo sha256Init padded (padded.length / 64))

/-! ## HMAC-SHA256 and PBKDF2 (as used via `crypto/hmac` and
`golang.org/x/crypto/pbkdf2`) -/

/-- HMAC-SHA256: keys longer than the 64-byte block are hashed first, then
zero-padded; inner pad 0x36, outer pad 0x5c. -/
def hmacSha256 (key msg : List Nat) : List Nat :=
  let k1 := if 64 < key.length then sha256 key else key
  let kp := k1 ++ List.replicate (64 - k1.length) 0
  sha256 ((kp.map (fun b => b ^^^ 92)) ++ sha256 ((kp.map (fun b => b ^^^ 54)) ++ msg))

/-- Pointwise XOR of two byte strings (`T[x] ^= U[x]` in the Go loop). -/
def xorBytes (a b : List Nat) : List Nat := List.zipWith (fun x y => x ^^^ y) a b

/-- Iterations 2..iter of one PBKDF2 block: `u` is the previous U, `t` the
running XOR accumulator, the fuel is the number of remaining iterations. -/
def pbkdf2Rounds (password u t : List Nat) : Nat → List Nat
  | 0 => t
  | n + 1 =>
    let u2 := hmacSha256 password u
    pbkdf2Rounds password u2 (xorBytes t u2) n

/-- One PBKDF2 block: U1 = PRF(salt ∥ INT(blockIdx)), then iterated PRF,
XOR-accumulated. -/
def pbkdf2Block (password salt : List Nat) (iter blockIdx : Nat) : List Nat :=
  let u1 := hmacSha256 password (salt ++ wordBE4 blockIdx)
  pbkdf2Rounds password u1 u1 (iter - 1)

/-- PBKDF2-HMAC-SHA256 (`pbkdf2.Key` with `sha256.New`): concatenate
`ceil(keyLen/32)` blocks and truncate to `keyLen` bytes. -/
def pbkdf2 (password salt : List Nat) (iter keyLen : Nat) : List Nat :=
  (((List.range ((keyLen + 31) / 32)).map
      (fun i => pbkdf2Block password salt iter (i + 1))).foldr List.append []).take keyLen

/-! ## Base64 (standard encoding, as used via `encoding/base64`) -/

/-- The standard base64 alphabet, as byte values. -/
def b64Table : GoStr :=
  strBytes "ABCDEFGHIJKLMNOPQRSTUVWXYZabcdefghijklmnopqrstuvwxyz0123456789+/"

/-- Standard base64 encoding of a byte string; 61 is the pad byte of the
character of code 61. -/
def base64Encode : List Nat → List Nat
  | b0 :: b1 :: b2 :: rest =>
    b64Table.getD (b0 / 4) 0 :: b64Table.getD ((b0 % 4) * 16 + b1 / 16) 0 ::
    b64Table.getD ((b1 % 16) * 4 + b2 / 64) 0 :: b64Table.getD (b2 % 64) 0 ::
    base64Encode rest
  | [b0, b1] =>
    [b64Table.getD (b0 / 4) 0, b64Table.getD ((b0 % 4) * 16 + b1 / 16) 0,
     b64Table.getD ((b1 % 16) * 4) 0, 61]
  | [b0] =>
    [b64Table.getD (b0 / 4) 0, b64Table.getD ((b0 % 4) * 16) 0, 61, 61]
  | [] => []

/-! ## Data model

Translated from the `users` package.  The `logs` field of `User` is Go's
`map[string][]*LogLine`; we represent such maps as association lists. -/

/-- One activity log entry (`LogLine`). -/
structure LogLine where
  ts : Int
  ip : GoStr
  logType : GoStr
  desc : GoStr
deriving DecidableEq

/-- The JSON-exported fields of `User` (tags `reg_ts` and `reg_ip`); all the
other fields are unexported or tagged `json:"-"`, so `json.Marshal(us)`
serializes exactly these two. -/
structure InfoData where
  regTs : Int
  regIp : GoStr
deriving DecidableEq

/-- The activity log map `map[string][]*LogLine`, as an association list. -/
abbrev Logs := List (GoStr × List LogLine)

/-- A string attribute that is written by `json.Marshal` and read back by
`json.Unmarshal`: `marshalled v` is the JSON text of `v` (marshalling the
types used here never fails), `malformed` is any stored string that does not
unmarshal into the expected shape. -/
inductive JsonBlob (α : Type) where
  | marshalled (v : α)
  | malformed (raw : GoStr)
deriving DecidableEq

/-- Result of `json.Unmarshal` on a stored attribute. -/
def JsonBlob.unmarshal {α : Type} : JsonBlob α → Option α
  | JsonBlob.marshalled v => some v
  | JsonBlob.malformed _ => none

/-- One item of the `users` table: the four string attributes written by
`User.persist` beside the `uid` primary key. -/
structure Item where
  key : GoStr
  infoBlob : JsonBlob InfoData
  logsBlob : JsonBlob Logs
  enabled : GoStr
deriving DecidableEq

/-- The `users` DynamoDB table: association list from the `uid` hash key to
the stored item. -/
abbrev Table := List (GoStr × Item)

/-- Association lookup (models the hash-key access of the table, the Go map
and the log map). -/
def assocGet {β : Type} : List (GoStr × β) → GoStr → Option β
  | [], _ => none
  | (k, v) :: rest, uid => if k = uid then some v else assocGet rest uid

/-- `PutItem`: unconditional full-item overwrite, inserting if absent. -/
def putItem : Table → GoStr → Item → Table
  | [], uid, item => [(uid, item)]
  | (k, v) :: rest, uid, item =>
    if k = uid then (uid, item) :: rest else (k, v) :: putItem rest uid item

/-- Appending a `LogLine` to a category of the log map: `AddActivityLog`
first creates the empty sequence if the key is absent, then appends. -/
def Logs.add : Logs → GoStr → LogLine → Logs
  | [], cat, line => [(cat, [line])]
  | (k, ls) :: rest, cat, line =>
    if k = cat then (k, ls ++ [line]) :: rest else (k, ls) :: Logs.add rest cat line

/-- The store handle (`Model`).  Only the table name and the process-wide
secret are data; the AWS connection is the explicit `Table` state threaded
through the operations. -/
structure Model where
  tableName : GoStr
  secret : GoStr
deriving DecidableEq

/-- One account (`User`).  The mutex and the back-reference to the model are
not data; mutation operations take and return the state explicitly. -/
structure User where
  uid : GoStr
  key : GoStr
  enabled : GoStr
  logs : Logs
  regTs : Int
  regIp : GoStr
deriving DecidableEq

/-- Registration errors (`errors.New` messages in the source). -/
inductive RegErr where
  | alreadyExists
  | persistFailed
deriving DecidableEq

/-! ## Operations -/

/-- `Model.HashPassword`: Base64(PBKDF2(password, secret, 4096 iterations,
`sha256.Size` = 32 bytes, SHA-256)). -/
def Model.HashPassword (md : Model) (password : GoStr) : GoStr :=
  base64Encode (pbkdf2 password md.secret 4096 32)

/-- The `+`-stripping of caller-supplied uids
(`strings.Replace(uid, "+", "", -1)`; 43 is the byte of the plus sign, and
in UTF-8 it can only occur as that character). -/
def stripPlus (uid : GoStr) : GoStr := uid.filter (fun b => b != 43)

/-- `Model.AdminGetUserInfoByID`: strongly-consistent read by the raw uid;
absent item or either JSON decode failure yields `none`. -/
def Model.AdminGetUserInfoByID (md : Model) (tbl : Table) (uid : GoStr) : Option User :=
  match assocGet tbl uid with
  | none => none
  | some data =>
    match data.infoBlob.unmarshal with
    | none => none
    | some info =>
      match data.logsBlob.unmarshal with
      | none => none
      | some logs =>
        some ⟨uid, data.key, data.enabled, logs, info.regTs, info.regIp⟩

/-- `Model.GetUserInfo` (authenticate): nil user, digest mismatch, or
enabled flag equal to "0" all yield `none`. -/
def Model.GetUserInfo (md : Model) (tbl : Table) (uid key : GoStr) : Option User :=
  match md.AdminGetUserInfoByID tbl uid with
  | none => none
  | some user =>
    if user.key ≠ md.HashPassword key ∨ user.enabled = strBytes "0" then none
    else some user

/-- `User.persist`: marshal the public fields and log map and write the
full item; `putOk` tells whether the DynamoDB put succeeds. -/
def User.persist (us : User) (tbl : Table) (putOk : Bool) : Table × Bool :=
  if putOk then
    (putItem tbl us.uid
      ⟨us.key, JsonBlob.marshalled ⟨us.regTs, us.regIp⟩,
       JsonBlob.marshalled us.logs, us.enabled⟩, true)
  else (tbl, false)

/-- `Model.RegisterUserPlainKey`: strip `+` from the uid, fail if a
strongly-consistent lookup finds the normalized uid, otherwise build the
fresh account (enabled "1", empty log map, registration time and ip) and
persist it. -/
def Model.RegisterUserPlainKey (md : Model) (tbl : Table) (now : Int) (putOk : Bool)
    (uid key ip : GoStr) : Except RegErr User × Table :=
  let uid2 := stripPlus uid
  match md.AdminGetUserInfoByID tbl uid2 with
  | some _ => (Except.error RegErr.alreadyExists, tbl)
  | none =>
    let user : User := ⟨uid2, key, strBytes "1", [], now, ip⟩
    let r := user.persist tbl putOk
    if r.2 then (Except.ok user, r.1) else (Except.error RegErr.persistFailed, r.1)

/-- `Model.RegisterUser`: hash the password, then delegate. -/
def Model.RegisterUser (md : Model) (tbl : Table) (now : Int) (putOk : Bool)
    (uid key ip : GoStr) : Except RegErr User × Table :=
  md.RegisterUserPlainKey tbl now putOk uid (md.HashPassword key) ip

/-- The loop body of `Model.GetRegisteredUsers`: rebuild every account of
the scanned rows; any JSON decode failure aborts the whole listing. -/
def usersLoop : List (GoStr × Item) → Option (List (GoStr × User))
  | [] => some []
  | (uid, row) :: rest =>
    match row.infoBlob.unmarshal with
    | none => none
    | some info =>
      match row.logsBlob.unmarshal with
      | none => none
      | some logs =>
        match usersLoop rest with
        | none => none
        | some users =>
          some ((uid, ⟨uid, row.key, row.enabled, logs, info.regTs, info.regIp⟩) :: users)

/-- `Model.GetRegisteredUsers`: unpaginated full-table scan. -/
def Model.GetRegisteredUsers (md : Model) (tbl : Table) : Option (List (GoStr × User)) :=
  usersLoop tbl

/-- `User.DisableUser`: set the enabled flag to "0" and persist. -/
def User.DisableUser (us : User) (tbl : Table) (putOk : Bool) : User × Table × Bool :=
  let us2 : User := { us with enabled := strBytes "0" }
  let r := us2.persist tbl putOk
  (us2, r.1, r.2)

/-- `User.EnableUser`: set the enabled flag to "1" and persist. -/
def User.EnableUser (us : User) (tbl : Table) (putOk : Bool) : User × Table × Bool :=
  let us2 : User := { us with enabled := strBytes "1" }
  let r := us2.persist tbl putOk
  (us2, r.1, r.2)

/-- `User.UpdateUser`: replace the credential digest with the hash of the
new password and persist. -/
def User.UpdateUser (us : User) (md : Model) (tbl : Table) (putOk : Bool)
    (key : GoStr) : User × Table × Bool :=
  let us2 : User := { us with key := md.HashPassword key }
  let r := us2.persist tbl putOk
  (us2, r.1, r.2)

/-- `User.AddActivityLog`: append a fresh `LogLine` to the category's
sequence (creating it if absent) and persist. -/
def User.AddActivityLog (us : User) (tbl : Table) (putOk : Bool) (now : Int)
    (actionType desc ip : GoStr) : User × Table × Bool :=
  let us2 : User := { us with logs := Logs.add us.logs actionType ⟨now, ip, actionType, desc⟩ }
  let r := us2.persist tbl putOk
  (us2, r.1, r.2)

/-- `User.GetAllActivity`: the in-memory log map, no re-read from storage. -/
def User.GetAllActivity (us : User) : Logs := us.logs

/-- Iterated `AddActivityLog` with successful persistence, used to state the
append/reload round trip; entries are (timestamp, description, ip). -/
def addActivities (us : User) (tbl : Table) (cat : GoStr) :
    List (Int × GoStr × GoStr) → User × Table
  | [] => (us, tbl)
  | e :: es =>
    let r := us.AddActivityLog tbl true e.1 cat e.2.1 e.2.2
    addActivities r.1 r.2.1 cat es

/-- The item that `User.persist` writes for an account. -/
def itemOf (us : User) : Item :=
  ⟨us.key, JsonBlob.marshalled ⟨us.regTs, us.regIp⟩, JsonBlob.marshalled us.logs, us.enabled⟩

/-! ## Shared lemmas -/

/-- Looking up the key just written finds the written item. -/
theorem assocGet_putItem_self (tbl : Table) (uid : GoStr) (item : Item) :
    assocGet (putItem tbl uid item) uid = some item := by
  induction tbl with
  | nil => simp [putItem, assocGet]
  | cons p rest ih =>
    by_cases h : p.1 = uid
    · simp [putItem, assocGet, h]
    · simp [putItem, assocGet, h, ih]

/-- Overwriting one key leaves every other key's lookup unchanged. -/
theorem assocGet_putItem_other (tbl : Table) (uid uid2 : GoStr) (item : Item)
    (h : uid2 ≠ uid) : assocGet (putItem tbl uid item) uid2 = assocGet tbl uid2 := by
  induction tbl with
  | nil => simp [putItem, assocGet, Ne.symm h]
  | cons p rest ih =>
    by_cases hp : p.1 = uid
    · subst hp
      simp [putItem, assocGet, Ne.symm h]
    · simp [putItem, assocGet, hp, ih]

/-- With a successful put, `persist` overwrites the account's item. -/
theorem persist_true (us : User) (tbl : Table) :
    us.persist tbl true = (putItem tbl us.uid (itemOf us), true) := rfl

/-- Loading a uid whose stored item is the persist image of an account
rebuilds exactly that account. -/
theorem adminGet_itemOf (md : Model) (tbl : Table) (us : User)
    (h : assocGet tbl us.uid = some (itemOf us)) :
    md.AdminGetUserInfoByID tbl us.uid = some us := by
  simp [Model.AdminGetUserInfoByID, h, itemOf, JsonBlob.unmarshal]

/-- Appending to a category makes its sequence the old sequence (empty when
the category was absent) plus the new line. -/
theorem assocGet_logsAdd_self (lg : Logs) (cat : GoStr) (line : LogLine) :
    assocGet (Logs.add lg cat line) cat = some ((assocGet lg cat).getD [] ++ [line]) := by
  induction lg with
  | nil => simp [Logs.add, assocGet]
  | cons p rest ih =>
    by_cases h : p.1 = cat
    · simp [Logs.add, assocGet, h]
    · simp [Logs.add, assocGet, h, ih]

/-- Stripping plus signs is idempotent. -/
theorem stripPlus_idem (uid : GoStr) : stripPlus (stripPlus uid) = stripPlus uid := by
  induction uid with
  | nil => rfl
  | cons b rest ih =>
    by_cases h : b = 43
    · simpa [stripPlus, List.filter_cons, h] using ih
    · simpa [stripPlus, List.filter_cons, h] using ih

/-- The `LogLine` created by `AddActivityLog` for category `cat` from an
entry (timestamp, description, ip). -/
def lineOf (cat : GoStr) (e : Int × GoStr × GoStr) : LogLine :=
  ⟨e.1, e.2.2, cat, e.2.1⟩

/-- The log-map effect of one `AddActivityLog` call. -/
def addLine (cat : GoStr) (lg : Logs) (e : Int × GoStr × GoStr) : Logs :=
  Logs.add lg cat (lineOf cat e)

/-- Effect of iterated successful `AddActivityLog` starting from a persisted
account: the in-memory account accumulates the lines, and the table holds
its persist image. -/
theorem addActivities_spec (md : Model) (cat : GoStr) :
    ∀ (es : List (Int × GoStr × GoStr)) (us : User) (tbl : Table),
      assocGet tbl us.uid = some (itemOf us) →
      (addActivities us tbl cat es).1
          = { us with logs := (es.foldl (addLine cat) us.logs) } ∧
      assocGet (addActivities us tbl cat es).2 (addActivities us tbl cat es).1.uid
          = some (itemOf (addActivities us tbl cat es).1) := by
  intro es
  induction es with
  | nil => intro us tbl h; exact ⟨rfl, h⟩
  | cons e es ih =>
    intro us tbl h
    have step : addActivities us tbl cat (e :: es)
        = addActivities { us with logs := (addLine cat us.logs e) }
            (putItem tbl us.uid (itemOf { us with logs := (addLine cat us.logs e) }))
            cat es := rfl
    rw [step]
    have h2 := ih { us with logs := (addLine cat us.logs e) }
      (putItem tbl us.uid (itemOf { us with logs := (addLine cat us.logs e) }))
      (assocGet_putItem_self tbl us.uid _)
    exact ⟨h2.1, h2.2⟩

/-- Lookup after folding a list of appends into one category. -/
theorem assocGet_foldAdd (cat : GoStr) :
    ∀ (es : List (Int × GoStr × GoStr)) (lg : Logs),
      (assocGet (es.foldl (addLine cat) lg) cat).getD []
        = (assocGet lg cat).getD [] ++ es.map (lineOf cat) := by
  intro es
  induction es with
  | nil => intro lg; simp
  | cons e es ih =>
    intro lg
    rw [List.foldl_cons, ih (addLine cat lg e)]
    show (assocGet (Logs.add lg cat (lineOf cat e)) cat).getD [] ++ _ = _
    rw [assocGet_logsAdd_self]
    simp

/-! ## Claims -/

/-- C1: `GetUserInfo(uid, password)` returns an account exactly when the
strongly-consistent lookup of the raw uid yields that account, its stored
credential digest equals `HashPassword` of the supplied password, and its
enabled flag is not "0"; in every other case it returns `none`, so a wrong
password, a disabled account and a missing (or corrupt) account are
indistinguishable to the caller. -/
theorem getUserInfo_iff (md : Model) (tbl : Table) (uid pw : GoStr) (u : User) :
    md.GetUserInfo tbl uid pw = some u ↔
      (md.AdminGetUserInfoByID tbl uid = some u ∧
       u.key = md.HashPassword pw ∧ u.enabled ≠ strBytes "0") := by
  unfold Model.GetUserInfo
  cases h : md.AdminGetUserInfoByID tbl uid with
  | none => simp
  | some v =>
    show (if v.key ≠ md.HashPassword pw ∨ v.enabled = strBytes "0" then none
          else some v) = some u ↔ _
    by_cases hc : v.key ≠ md.HashPassword pw ∨ v.enabled = strBytes "0"
    · rw [if_pos hc]
      simp only [Option.some.injEq]
      constructor
      · intro hfalse
        exact absurd hfalse (by simp)
      · rintro ⟨h1, h2, h3⟩
        subst h1
        rcases hc with hc | hc
        · exact absurd h2 hc
        · exact absurd hc h3
    · rw [if_neg hc]
      push_neg at hc
      simp only [Option.some.injEq]
      constructor
      · intro h1
        subst h1
        exact ⟨rfl, hc.1, hc.2⟩
      · rintro ⟨h1, h2, h3⟩
        exact h1

/-- C9: the disabled check of authentication compares the stored flag only
against the exact string "0"; any account whose flag is any other string
(for example "2" or the empty string) authenticates whenever the digest
matches — the code never requires the flag to equal "1". -/
theorem enabled_check_only_zero (md : Model) (tbl : Table) (uid pw : GoStr) (u : User)
    (hget : md.AdminGetUserInfoByID tbl uid = some u)
    (hk : u.key = md.HashPassword pw)
    (he : u.enabled ≠ strBytes "0") :
    md.GetUserInfo tbl uid pw = some u := by
  simp [Model.GetUserInfo, hget, hk, he]

/-- Witness for C9: an account whose enabled flag is the unexpected string
"2" still authenticates. -/
theorem enabled_check_only_zero_witness :
    (Model.AdminGetUserInfoByID ⟨strBytes "t", strBytes "s"⟩
        [(strBytes "u",
          ⟨Model.HashPassword ⟨strBytes "t", strBytes "s"⟩ (strBytes "pw"),
           JsonBlob.marshalled ⟨7, strBytes "ip"⟩, JsonBlob.marshalled [],
           strBytes "2"⟩)] (strBytes "u")
      = some ⟨strBytes "u",
          Model.HashPassword ⟨strBytes "t", strBytes "s"⟩ (strBytes "pw"),
          strBytes "2", [], 7, strBytes "ip"⟩) ∧
    Model.GetUserInfo ⟨strBytes "t", strBytes "s"⟩
        [(strBytes "u",
          ⟨Model.HashPassword ⟨strBytes "t", strBytes "s"⟩ (strBytes "pw"),
           JsonBlob.marshalled ⟨7, strBytes "ip"⟩, JsonBlob.marshalled [],
           strBytes "2"⟩)] (strBytes "u") (strBytes "pw")
      = some ⟨strBytes "u",
          Model.HashPassword ⟨strBytes "t", strBytes "s"⟩ (strBytes "pw"),
          strBytes "2", [], 7, strBytes "ip"⟩ :=
  ⟨by simp [Model.AdminGetUserInfoByID, assocGet, JsonBlob.unmarshal],
   enabled_check_only_zero ⟨strBytes "t", strBytes "s"⟩
     [(strBytes "u",
       ⟨Model.HashPassword ⟨strBytes "t", strBytes "s"⟩ (strBytes "pw"),
        JsonBlob.marshalled ⟨7, strBytes "ip"⟩, JsonBlob.marshalled [],
        strBytes "2"⟩)] (strBytes "u") (strBytes "pw")
     ⟨strBytes "u",
      Model.HashPassword ⟨strBytes "t", strBytes "s"⟩ (strBytes "pw"),
      strBytes "2", [], 7, strBytes "ip"⟩
     (by simp [Model.AdminGetUserInfoByID, assocGet, JsonBlob.unmarshal])
     (by with_reducible rfl) (by decide)⟩

/-- C10: the mutation operations apply their change to the in-memory account
before persisting; when the put fails they return `false` and leave the
table unchanged, but the in-memory mutation (flag, digest, appended line)
remains applied. -/
theorem no_rollback_on_failed_persist (md : Model) (us : User) (tbl : Table)
    (key : GoStr) (now : Int) (t d i : GoStr) :
    (us.DisableUser tbl false).1.enabled = strBytes "0" ∧
    (us.DisableUser tbl false).2.2 = false ∧
    (us.DisableUser tbl false).2.1 = tbl ∧
    (us.EnableUser tbl false).1.enabled = strBytes "1" ∧
    (us.EnableUser tbl false).2.2 = false ∧
    (us.EnableUser tbl false).2.1 = tbl ∧
    (us.UpdateUser md tbl false key).1.key = md.HashPassword key ∧
    (us.UpdateUser md tbl false key).2.2 = false ∧
    (us.UpdateUser md tbl false key).2.1 = tbl ∧
    (assocGet (us.AddActivityLog tbl false now t d i).1.logs t).getD []
      = (assocGet us.logs t).getD [] ++ [⟨now, i, t, d⟩] ∧
    (us.AddActivityLog tbl false now t d i).2.2 = false ∧
    (us.AddActivityLog tbl false now t d i).2.1 = tbl := by
  refine ⟨rfl, rfl, rfl, rfl, rfl, rfl, ?_, rfl, rfl, ?_, rfl, rfl⟩
  · show ({ us with key := md.HashPassword key } : User).key = md.HashPassword key
    with_reducible rfl
  · show (assocGet (Logs.add us.logs t ⟨now, i, t, d⟩) t).getD [] = _
    rw [assocGet_logsAdd_self]
    rfl

/-- C5: for an account whose digest is the hash of the correct password,
after `DisableUser` authentication with that password is denied, and after a
subsequent `EnableUser` it succeeds again (returning the re-enabled
account). -/
theorem disable_enable_auth (md : Model) (tbl : Table) (us : User) (pw : GoStr)
    (hk : us.key = md.HashPassword pw) :
    md.GetUserInfo (us.DisableUser tbl true).2.1 us.uid pw = none ∧
    md.GetUserInfo
        (((us.DisableUser tbl true).1).EnableUser (us.DisableUser tbl true).2.1 true).2.1
        us.uid pw
      = some (((us.DisableUser tbl true).1).EnableUser (us.DisableUser tbl true).2.1 true).1 := by
  have hne : strBytes "1" ≠ strBytes "0" := by decide
  constructor
  · have hget : md.AdminGetUserInfoByID (us.DisableUser tbl true).2.1 us.uid
        = some { us with enabled := strBytes "0" } :=
      adminGet_itemOf md (us.DisableUser tbl true).2.1
        { us with enabled := strBytes "0" }
        (assocGet_putItem_self tbl us.uid _)
    simp [Model.GetUserInfo, hget]
  · have hget : md.AdminGetUserInfoByID
        (((us.DisableUser tbl true).1).EnableUser (us.DisableUser tbl true).2.1 true).2.1
        us.uid
        = some { us with enabled := strBytes "1" } :=
      adminGet_itemOf md
        (((us.DisableUser tbl true).1).EnableUser (us.DisableUser tbl true).2.1 true).2.1
        { us with enabled := strBytes "1" }
        (assocGet_putItem_self (us.DisableUser tbl true).2.1 us.uid _)
    have hres : (((us.DisableUser tbl true).1).EnableUser (us.DisableUser tbl true).2.1 true).1
        = { us with enabled := strBytes "1" } := rfl
    rw [hres]
    simp [Model.GetUserInfo, hget, hk, hne]

/-- Witness for C5: a concrete enabled account with the correct password is
denied after disabling. -/
theorem disable_enable_auth_witness :
    ((⟨strBytes "u", Model.HashPassword ⟨strBytes "t", strBytes "s"⟩ (strBytes "pw"),
        strBytes "1", [], 3, strBytes "ip"⟩ : User).key
      = Model.HashPassword ⟨strBytes "t", strBytes "s"⟩ (strBytes "pw")) ∧
    (Model.GetUserInfo ⟨strBytes "t", strBytes "s"⟩
        ((⟨strBytes "u", Model.HashPassword ⟨strBytes "t", strBytes "s"⟩ (strBytes "pw"),
           strBytes "1", [], 3, strBytes "ip"⟩ : User).DisableUser [] true).2.1
        (strBytes "u") (strBytes "pw") = none) :=
  ⟨by with_reducible rfl,
   (disable_enable_auth ⟨strBytes "t", strBytes "s"⟩ []
      ⟨strBytes "u", Model.HashPassword ⟨strBytes "t", strBytes "s"⟩ (strBytes "pw"),
        strBytes "1", [], 3, strBytes "ip"⟩ (strBytes "pw") (by with_reducible rfl)).1⟩

/-- C2: registration strips every `+` from the caller-supplied uid before
the uniqueness check and before storage: the call behaves exactly as if it
had been given the stripped uid, a successful registration creates the
account under the fully stripped uid and stores it there, and
`RegisterUser` goes through the same path with the hashed password. -/
theorem register_strips_plus (md : Model) (tbl : Table) (now : Int) (ok : Bool)
    (uid key ip : GoStr)
    (hnew : md.AdminGetUserInfoByID tbl (stripPlus uid) = none) :
    md.RegisterUserPlainKey tbl now ok uid key ip
      = md.RegisterUserPlainKey tbl now ok (stripPlus uid) key ip ∧
    md.RegisterUserPlainKey tbl now true uid key ip
      = (Except.ok (⟨stripPlus uid, key, strBytes "1", [], now, ip⟩ : User),
         putItem tbl (stripPlus uid)
           (itemOf ⟨stripPlus uid, key, strBytes "1", [], now, ip⟩)) ∧
    md.RegisterUser tbl now ok uid key ip
      = md.RegisterUserPlainKey tbl now ok (stripPlus uid) (md.HashPassword key) ip := by
  refine ⟨?_, ?_, ?_⟩
  · unfold Model.RegisterUserPlainKey
    rw [stripPlus_idem]
  · simp only [Model.RegisterUserPlainKey]
    rw [hnew]
    simp only [User.persist, if_pos]
    rfl
  · unfold Model.RegisterUser Model.RegisterUserPlainKey
    rw [stripPlus_idem]

/-- Witness for C2: registering "a+b" into the empty table behaves as
registering "ab" and stores the account under "ab". -/
theorem register_strips_plus_witness :
    (Model.AdminGetUserInfoByID ⟨strBytes "t", strBytes "s"⟩ []
        (stripPlus (strBytes "a+b")) = none) ∧
    (Model.RegisterUserPlainKey ⟨strBytes "t", strBytes "s"⟩ [] 3 false
        (strBytes "a+b") (strBytes "K") (strBytes "9")
      = Model.RegisterUserPlainKey ⟨strBytes "t", strBytes "s"⟩ [] 3 false
          (stripPlus (strBytes "a+b")) (strBytes "K") (strBytes "9") ∧
     Model.RegisterUserPlainKey ⟨strBytes "t", strBytes "s"⟩ [] 3 true
        (strBytes "a+b") (strBytes "K") (strBytes "9")
      = (Except.ok (⟨stripPlus (strBytes "a+b"), strBytes "K", strBytes "1", [], 3,
           strBytes "9"⟩ : User),
         putItem [] (stripPlus (strBytes "a+b"))
           (itemOf ⟨stripPlus (strBytes "a+b"), strBytes "K", strBytes "1", [], 3,
             strBytes "9"⟩)) ∧
     Model.RegisterUser ⟨strBytes "t", strBytes "s"⟩ [] 3 false
        (strBytes "a+b") (strBytes "K") (strBytes "9")
      = Model.RegisterUserPlainKey ⟨strBytes "t", strBytes "s"⟩ [] 3 false
          (stripPlus (strBytes "a+b"))
          (Model.HashPassword ⟨strBytes "t", strBytes "s"⟩ (strBytes "K"))
          (strBytes "9")) :=
  ⟨rfl,
   register_strips_plus ⟨strBytes "t", strBytes "s"⟩ [] 3 false
     (strBytes "a+b") (strBytes "K") (strBytes "9") rfl⟩

/-- C3: when a registration succeeds, a second registration of any uid with
the same normalized form fails with the AlreadyExists error, returns no
account, and leaves the table (hence the first account's stored state)
unchanged. -/
theorem register_twice_already_exists (md : Model) (tbl tbl2 : Table)
    (now now2 : Int) (ok2 : Bool) (uid key ip uid2 key2 ip2 : GoStr) (u : User)
    (h1 : md.RegisterUserPlainKey tbl now true uid key ip = (Except.ok u, tbl2))
    (h2 : stripPlus uid2 = stripPlus uid) :
    md.RegisterUserPlainKey tbl2 now2 ok2 uid2 key2 ip2
      = (Except.error RegErr.alreadyExists, tbl2) := by
  simp only [Model.RegisterUserPlainKey] at h1
  cases hB : md.AdminGetUserInfoByID tbl (stripPlus uid) with
  | some v =>
    rw [hB] at h1
    simp at h1
  | none =>
    rw [hB] at h1
    simp only [User.persist, if_pos, Prod.mk.injEq, Except.ok.injEq] at h1
    obtain ⟨hu, ht⟩ := h1
    have hget : md.AdminGetUserInfoByID tbl2 (stripPlus uid)
        = some ⟨stripPlus uid, key, strBytes "1", [], now, ip⟩ := by
      rw [← ht]
      exact adminGet_itemOf md _ ⟨stripPlus uid, key, strBytes "1", [], now, ip⟩
        (assocGet_putItem_self tbl (stripPlus uid) _)
    simp only [Model.RegisterUserPlainKey]
    rw [h2, hget]

/-- Witness for C3: registering "ab" right after a successful registration
of "a+b" (same normalized uid) fails with AlreadyExists and leaves the
table unchanged. -/
theorem register_twice_already_exists_witness :
    (Model.RegisterUserPlainKey ⟨strBytes "t", strBytes "s"⟩ [] 5 true
        (strBytes "a+b") (strBytes "K") (strBytes "9")
      = (Except.ok (⟨strBytes "ab", strBytes "K", strBytes "1", [], 5,
           strBytes "9"⟩ : User),
         [(strBytes "ab",
           ⟨strBytes "K", JsonBlob.marshalled ⟨5, strBytes "9"⟩,
            JsonBlob.marshalled [], strBytes "1"⟩)])) ∧
    (stripPlus (strBytes "ab") = stripPlus (strBytes "a+b")) ∧
    Model.RegisterUserPlainKey ⟨strBytes "t", strBytes "s"⟩
        [(strBytes "ab",
          ⟨strBytes "K", JsonBlob.marshalled ⟨5, strBytes "9"⟩,
           JsonBlob.marshalled [], strBytes "1"⟩)] 6 true
        (strBytes "ab") (strBytes "K2") (strBytes "8")
      = (Except.error RegErr.alreadyExists,
         [(strBytes "ab",
           ⟨strBytes "K", JsonBlob.marshalled ⟨5, strBytes "9"⟩,
            JsonBlob.marshalled [], strBytes "1"⟩)]) :=
  ⟨rfl, by decide,
   register_twice_already_exists ⟨strBytes "t", strBytes "s"⟩ [] _ 5 6 true
     (strBytes "a+b") (strBytes "K") (strBytes "9")
     (strBytes "ab") (strBytes "K2") (strBytes "8")
     ⟨strBytes "ab", strBytes "K", strBytes "1", [], 5, strBytes "9"⟩
     rfl (by decide)⟩

/-- C8: after registering "a+b@x.com", lookup by the raw uid "a+b@x.com"
returns nothing while lookup by "ab@x.com" returns the account:
registration stores the stripped uid but `AdminGetUserInfoByID` does not
normalize its argument. -/
theorem plus_uid_lookup_asymmetry :
    (Model.RegisterUser ⟨strBytes "pit", strBytes "secret"⟩ [] 100 true
        (strBytes "a+b@x.com") (strBytes "pw1") (strBytes "1.2.3.4")).1
      = Except.ok ⟨strBytes "ab@x.com",
          Model.HashPassword ⟨strBytes "pit", strBytes "secret"⟩ (strBytes "pw1"),
          strBytes "1", [], 100, strBytes "1.2.3.4"⟩ ∧
    Model.AdminGetUserInfoByID ⟨strBytes "pit", strBytes "secret"⟩
        (Model.RegisterUser ⟨strBytes "pit", strBytes "secret"⟩ [] 100 true
          (strBytes "a+b@x.com") (strBytes "pw1") (strBytes "1.2.3.4")).2
        (strBytes "a+b@x.com")
      = none ∧
    Model.AdminGetUserInfoByID ⟨strBytes "pit", strBytes "secret"⟩
        (Model.RegisterUser ⟨strBytes "pit", strBytes "secret"⟩ [] 100 true
          (strBytes "a+b@x.com") (strBytes "pw1") (strBytes "1.2.3.4")).2
        (strBytes "ab@x.com")
      = some ⟨strBytes "ab@x.com",
          Model.HashPassword ⟨strBytes "pit", strBytes "secret"⟩ (strBytes "pw1"),
          strBytes "1", [], 100, strBytes "1.2.3.4"⟩ := by
  have hgen : ∀ dg : GoStr,
      Model.RegisterUserPlainKey ⟨strBytes "pit", strBytes "secret"⟩ [] 100 true
          (strBytes "a+b@x.com") dg (strBytes "1.2.3.4")
        = (Except.ok ⟨strBytes "ab@x.com", dg, strBytes "1", [], 100,
             strBytes "1.2.3.4"⟩,
           [(strBytes "ab@x.com",
             ⟨dg, JsonBlob.marshalled ⟨100, strBytes "1.2.3.4"⟩,
              JsonBlob.marshalled [], strBytes "1"⟩)]) := by
    intro dg
    have hstrip : stripPlus (strBytes "a+b@x.com") = strBytes "ab@x.com" := by decide
    simp only [Model.RegisterUserPlainKey, User.persist, hstrip]
    rfl
  have hRU : Model.RegisterUser ⟨strBytes "pit", strBytes "secret"⟩ [] 100 true
        (strBytes "a+b@x.com") (strBytes "pw1") (strBytes "1.2.3.4")
      = Model.RegisterUserPlainKey ⟨strBytes "pit", strBytes "secret"⟩ [] 100 true
          (strBytes "a+b@x.com")
          (Model.HashPassword ⟨strBytes "pit", strBytes "secret"⟩ (strBytes "pw1"))
          (strBytes "1.2.3.4") := rfl
  have hne : ¬(strBytes "ab@x.com" = strBytes "a+b@x.com") := by decide
  rw [hRU, hgen]
  refine ⟨rfl, ?_, ?_⟩
  · simp [Model.AdminGetUserInfoByID, assocGet, hne]
  · simp [Model.AdminGetUserInfoByID, assocGet, JsonBlob.unmarshal]

/-- C4: persisting an account and reloading it by id reproduces the account
exactly (in particular its enabled flag, registration timestamp and origin
ip); and appending N activity entries to a category that starts empty, each
appended entry being persisted, makes the reloaded account hold exactly
those N entries of that category, in insertion order, with every field
identical. -/
theorem persist_reload_roundtrip (md : Model) (us : User) (tbl : Table) (cat : GoStr)
    (es : List (Int × GoStr × GoStr)) (h0 : assocGet us.logs cat = none) :
    md.AdminGetUserInfoByID (us.persist tbl true).1 us.uid = some us ∧
    md.AdminGetUserInfoByID (addActivities us (us.persist tbl true).1 cat es).2
        (addActivities us (us.persist tbl true).1 cat es).1.uid
      = some (addActivities us (us.persist tbl true).1 cat es).1 ∧
    (assocGet (addActivities us (us.persist tbl true).1 cat es).1.logs cat).getD []
      = es.map (lineOf cat) ∧
    ((assocGet (addActivities us (us.persist tbl true).1 cat es).1.logs cat).getD []).length
      = es.length ∧
    (addActivities us (us.persist tbl true).1 cat es).1.regTs = us.regTs ∧
    (addActivities us (us.persist tbl true).1 cat es).1.regIp = us.regIp ∧
    (addActivities us (us.persist tbl true).1 cat es).1.enabled = us.enabled := by
  have hput : assocGet (us.persist tbl true).1 us.uid = some (itemOf us) := by
    rw [persist_true]
    exact assocGet_putItem_self tbl us.uid _
  have hspec := addActivities_spec md cat es us (us.persist tbl true).1 hput
  have hlogs : (assocGet (addActivities us (us.persist tbl true).1 cat es).1.logs cat).getD []
      = es.map (lineOf cat) := by
    rw [hspec.1]
    show (assocGet (es.foldl (addLine cat) us.logs) cat).getD [] = _
    rw [assocGet_foldAdd, h0]
    rfl
  refine ⟨adminGet_itemOf md _ us hput, adminGet_itemOf md _ _ hspec.2, hlogs, ?_, ?_, ?_, ?_⟩
  · rw [hlogs, List.length_map]
  · rw [hspec.1]
  · rw [hspec.1]
  · rw [hspec.1]

/-- Witness for C4: a concrete account, persisted into the empty table, is
reloaded identically, and two appended activity entries round-trip in
order. -/
theorem persist_reload_roundtrip_witness :
    (assocGet ((⟨strBytes "u", strBytes "K", strBytes "1", [], 9,
        strBytes "ip"⟩ : User).logs) (strBytes "account") = none) ∧
    Model.AdminGetUserInfoByID ⟨strBytes "t", strBytes "s"⟩
        ((⟨strBytes "u", strBytes "K", strBytes "1", [], 9,
           strBytes "ip"⟩ : User).persist [] true).1 (strBytes "u")
      = some ⟨strBytes "u", strBytes "K", strBytes "1", [], 9, strBytes "ip"⟩ ∧
    (assocGet (addActivities ⟨strBytes "u", strBytes "K", strBytes "1", [], 9,
          strBytes "ip"⟩
        ((⟨strBytes "u", strBytes "K", strBytes "1", [], 9,
           strBytes "ip"⟩ : User).persist [] true).1 (strBytes "account")
        [(1, strBytes "d1", strBytes "i1"), (2, strBytes "d2", strBytes "i2")]).1.logs
      (strBytes "account")).getD []
      = [⟨1, strBytes "i1", strBytes "account", strBytes "d1"⟩,
         ⟨2, strBytes "i2", strBytes "account", strBytes "d2"⟩] := by
  refine ⟨rfl, ?_, ?_⟩
  · exact (persist_reload_roundtrip ⟨strBytes "t", strBytes "s"⟩
      ⟨strBytes "u", strBytes "K", strBytes "1", [], 9, strBytes "ip"⟩ []
      (strBytes "account")
      [(1, strBytes "d1", strBytes "i1"), (2, strBytes "d2", strBytes "i2")] rfl).1
  · exact (persist_reload_roundtrip ⟨strBytes "t", strBytes "s"⟩
      ⟨strBytes "u", strBytes "K", strBytes "1", [], 9, strBytes "ip"⟩ []
      (strBytes "account")
      [(1, strBytes "d1", strBytes "i1"), (2, strBytes "d2", strBytes "i2")] rfl).2.2.1

/-- The listing loop aborts exactly when some scanned row has an
undecodable info or logs attribute. -/
theorem usersLoop_none_iff (tbl : Table) :
    usersLoop tbl = none ↔
      ∃ row ∈ tbl, row.2.infoBlob.unmarshal = none ∨ row.2.logsBlob.unmarshal = none := by
  induction tbl with
  | nil => simp [usersLoop]
  | cons p rest ih =>
    obtain ⟨k, row⟩ := p
    cases hi : row.infoBlob.unmarshal with
    | none => simp [usersLoop, hi]
    | some info =>
      cases hl : row.logsBlob.unmarshal with
      | none => simp [usersLoop, hi, hl]
      | some logs =>
        cases hr : usersLoop rest with
        | none =>
          simp only [usersLoop, hi, hl, hr]
          simp [hi, hl, ← ih, hr]
        | some l =>
          simp only [usersLoop, hi, hl, hr]
          simp [hi, hl, ← ih, hr]

/-- When the listing succeeds, looking a uid up in the returned mapping
agrees with the per-id lookup. -/
theorem usersLoop_lookup (md : Model) (tbl : Table) (uid : GoStr) :
    usersLoop tbl = none ∨
      assocGet ((usersLoop tbl).getD []) uid = md.AdminGetUserInfoByID tbl uid := by
  induction tbl with
  | nil =>
    right
    simp [usersLoop, assocGet, Model.AdminGetUserInfoByID]
  | cons p rest ih =>
    obtain ⟨k, row⟩ := p
    cases hi : row.infoBlob.unmarshal with
    | none => left; simp [usersLoop, hi]
    | some info =>
      cases hl : row.logsBlob.unmarshal with
      | none => left; simp [usersLoop, hi, hl]
      | some logs =>
        cases hr : usersLoop rest with
        | none => left; simp [usersLoop, hi, hl, hr]
        | some l =>
          right
          rcases ih with ih | ih
          · rw [ih] at hr; cases hr
          · rw [hr] at ih
            simp only [usersLoop, hi, hl, hr, Option.getD_some]
            by_cases hk : k = uid
            · subst hk
              simp [assocGet, Model.AdminGetUserInfoByID, hi, hl]
            · simp only [Option.getD_some] at ih
              simp only [assocGet, hk, if_false, ite_false]
              rw [ih]
              simp [Model.AdminGetUserInfoByID, assocGet, hk]

/-- C6: the full-table listing is all-or-nothing: it returns `none` exactly
when at least one stored record fails to deserialize (one poison record
makes the whole account base unlistable); otherwise it returns a mapping in
which looking up any uid agrees with the per-id lookup, so every stored
account appears keyed by uid. -/
theorem listAll_all_or_nothing (md : Model) (tbl : Table) (uid : GoStr) :
    (md.GetRegisteredUsers tbl = none ↔
      ∃ row ∈ tbl, row.2.infoBlob.unmarshal = none ∨ row.2.logsBlob.unmarshal = none) ∧
    (md.GetRegisteredUsers tbl = none ∨
      assocGet ((md.GetRegisteredUsers tbl).getD []) uid
        = md.AdminGetUserInfoByID tbl uid) :=
  ⟨usersLoop_none_iff tbl, usersLoop_lookup md tbl uid⟩

/-! ## Structural facts about the credential hasher -/

/-- The SHA-256 digest serialization has 32 bytes. -/
theorem digestBytes_length (st : Hash8) : (digestBytes st).length = 32 := by
  simp [digestBytes, wordBE4]

/-- Every byte of the SHA-256 digest serialization is below 256. -/
theorem digestBytes_lt (st : Hash8) : ∀ x ∈ digestBytes st, x < 256 := by
  intro x hx
  simp [digestBytes, wordBE4] at hx
  omega

/-- SHA-256 digests have 32 bytes. -/
theorem sha256_length (msg : List Nat) : (sha256 msg).length = 32 :=
  digestBytes_length _

/-- SHA-256 digest bytes are below 256. -/
theorem sha256_lt (msg : List Nat) : ∀ x ∈ sha256 msg, x < 256 :=
  digestBytes_lt _

/-- HMAC-SHA256 digests have 32 bytes. -/
theorem hmacSha256_length (key msg : List Nat) : (hmacSha256 key msg).length = 32 :=
  sha256_length _

/-- HMAC-SHA256 digest bytes are below 256. -/
theorem hmacSha256_lt (key msg : List Nat) : ∀ x ∈ hmacSha256 key msg, x < 256 :=
  sha256_lt _

/-- Length of a pointwise XOR. -/
theorem xorBytes_length (a b : List Nat) :
    (xorBytes a b).length = min a.length b.length :=
  List.length_zipWith ..

/-- Pointwise XOR preserves the byte bound. -/
theorem xorBytes_lt (a b : List Nat) (ha : ∀ x ∈ a, x < 256) (hb : ∀ x ∈ b, x < 256) :
    ∀ x ∈ xorBytes a b, x < 256 := by
  induction a generalizing b with
  | nil => simp [xorBytes]
  | cons y ys ih =>
    cases b with
    | nil => simp [xorBytes]
    | cons z zs =>
      intro x hx
      simp only [xorBytes, List.zipWith_cons_cons, List.mem_cons] at hx
      rcases hx with hx | hx
      · subst hx
        have h256 : (256 : Nat) = 2 ^ 8 := by norm_num
        rw [h256]
        exact Nat.xor_lt_two_pow (by rw [← h256]; exact ha y (by simp))
          (by rw [← h256]; exact hb z (by simp))
      · exact ih zs (fun w hw => ha w (by simp [hw])) (fun w hw => hb w (by simp [hw])) x hx

/-- The XOR-accumulation loop of PBKDF2 keeps the 32-byte length. -/
theorem pbkdf2Rounds_length (p : List Nat) :
    ∀ (n : Nat) (u t : List Nat), t.length = 32 → (pbkdf2Rounds p u t n).length = 32 := by
  intro n
  induction n with
  | zero => intro u t ht; exact ht
  | succ n ih =>
    intro u t ht
    exact ih _ _ (by rw [xorBytes_length, ht, hmacSha256_length]; simp)

/-- The XOR-accumulation loop of PBKDF2 keeps the byte bound. -/
theorem pbkdf2Rounds_lt (p : List Nat) :
    ∀ (n : Nat) (u t : List Nat), (∀ x ∈ t, x < 256) →
      ∀ x ∈ pbkdf2Rounds p u t n, x < 256 := by
  intro n
  induction n with
  | zero => intro u t ht; exact ht
  | succ n ih =>
    intro u t ht
    exact ih _ _ (xorBytes_lt _ _ ht (hmacSha256_lt p _))

/-- Each PBKDF2 block has 32 bytes. -/
theorem pbkdf2Block_length (p s : List Nat) (iter idx : Nat) :
    (pbkdf2Block p s iter idx).length = 32 := by
  simp only [pbkdf2Block]
  exact pbkdf2Rounds_length p _ _ _ (hmacSha256_length ..)

/-- Each PBKDF2 block has bytes below 256. -/
theorem pbkdf2Block_lt (p s : List Nat) (iter idx : Nat) :
    ∀ x ∈ pbkdf2Block p s iter idx, x < 256 := by
  simp only [pbkdf2Block]
  exact pbkdf2Rounds_lt p _ _ _ (hmacSha256_lt p _)

/-- The raw digest the hasher feeds into base64 has exactly 32 bytes. -/
theorem pbkdf2_hash_length (p s : List Nat) (iter : Nat) :
    (pbkdf2 p s iter 32).length = 32 := by
  simp only [pbkdf2]
  rw [show List.range ((32 + 31) / 32) = [0] from rfl]
  simp only [List.map_cons, List.map_nil, List.foldr_cons, List.foldr_nil,
    List.append_eq, List.append_nil]
  rw [List.length_take, pbkdf2Block_length]
  simp

/-- The raw digest the hasher feeds into base64 has bytes below 256. -/
theorem pbkdf2_hash_lt (p s : List Nat) (iter : Nat) :
    ∀ x ∈ pbkdf2 p s iter 32, x < 256 := by
  simp only [pbkdf2]
  rw [show List.range ((32 + 31) / 32) = [0] from rfl]
  simp only [List.map_cons, List.map_nil, List.foldr_cons, List.foldr_nil,
    List.append_eq, List.append_nil]
  intro x hx
  exact pbkdf2Block_lt p s iter (0 + 1) x (List.take_subset _ _ hx)

/-- C7 (amended): the hasher is a deterministic pure function of the
password and the process-wide secret — two store handles with the same
secret produce identical digests for every password, and repeated calls
trivially agree; but it is NOT true that any two different secrets always
yield different digests (see the counterexample theorem). -/
theorem hash_depends_only_on_secret (md1 md2 : Model) (p : GoStr)
    (hs : md1.secret = md2.secret) :
    md1.HashPassword p = md2.HashPassword p := by
  unfold Model.HashPassword
  rw [hs]

/-- Witness for the amended C7: two models differing in their table name
but sharing a secret hash identically. -/
theorem hash_depends_only_on_secret_witness :
    ((⟨strBytes "a", strBytes "s"⟩ : Model).secret
      = (⟨strBytes "b", strBytes "s"⟩ : Model).secret) ∧
    Model.HashPassword ⟨strBytes "a", strBytes "s"⟩ (strBytes "pw")
      = Model.HashPassword ⟨strBytes "b", strBytes "s"⟩ (strBytes "pw") :=
  ⟨by with_reducible rfl,
   hash_depends_only_on_secret ⟨strBytes "a", strBytes "s"⟩
     ⟨strBytes "b", strBytes "s"⟩ (strBytes "pw") (by with_reducible rfl)⟩

/-- C7 (counterexample): it is false that for every password two different
secrets yield different digests.  The digest is 32 bytes (then base64), a
finite space, while byte-string secrets are unbounded, so by pigeonhole two
distinct secrets must collide for any fixed password — here shown over the
all-zero secrets of each length and the empty password. -/
theorem hash_secret_collision_exists :
    ¬ (∀ (p s1 s2 : GoStr), (∀ b ∈ s1, b < 256) → (∀ b ∈ s2, b < 256) →
        s1 ≠ s2 →
        Model.HashPassword ⟨[], s1⟩ p ≠ Model.HashPassword ⟨[], s2⟩ p) := by
  intro H
  have hlen : ∀ n : Nat, (pbkdf2 [] (List.replicate n 0) 4096 32).length = 32 :=
    fun n => pbkdf2_hash_length [] _ 4096
  have hbound : ∀ (n : Nat) (i : Fin 32),
      (pbkdf2 [] (List.replicate n 0) 4096 32).getD i.1 0 < 256 := by
    intro n i
    have hi : i.1 < (pbkdf2 [] (List.replicate n 0) 4096 32).length := by
      rw [hlen n]; exact i.2
    rw [List.getD_eq_getElem _ _ hi]
    exact pbkdf2_hash_lt [] _ 4096 _ (List.getElem_mem hi)
  obtain ⟨m, n, hmn, hfeq⟩ := Finite.exists_ne_map_eq_of_infinite
    (fun (k : Nat) (i : Fin 32) =>
      (⟨(pbkdf2 [] (List.replicate k 0) 4096 32).getD i.1 0, hbound k i⟩ : Fin 256))
  have hraw : pbkdf2 [] (List.replicate m 0) 4096 32
      = pbkdf2 [] (List.replicate n 0) 4096 32 := by
    apply List.ext_getElem (by rw [hlen, hlen])
    intro i h1 h2
    have hfi := congrFun hfeq ⟨i, by rw [hlen m] at h1; exact h1⟩
    have hv := congrArg Fin.val hfi
    simp only at hv
    rw [List.getD_eq_getElem _ _ h1, List.getD_eq_getElem _ _ h2] at hv
    exact hv
  have hs : List.replicate m (0 : Nat) ≠ List.replicate n 0 := by
    intro he
    exact hmn (by simpa using congrArg List.length he)
  refine H [] (List.replicate m 0) (List.replicate n 0) ?_ ?_ hs ?_
  · intro b hb
    rw [List.eq_of_mem_replicate hb]
    norm_num
  · intro b hb
    rw [List.eq_of_mem_replicate hb]
    norm_num
  · simp only [Model.HashPassword]
    rw [hraw]
